import Mathlib

/-!
# Verification of the calculator's expression evaluator (src/calculator.py)

This file shallowly embeds the `Calculator` class of `src/calculator.py`.
The evaluator `_safe_evaluate` parses the display string with Python's
`ast.parse(expression, mode="eval")` and then walks the tree through a
whitelist (`_eval`), so the embedding has three layers, each translated
from the source (the first two model the CPython parser, which the source
calls, restricted to the character set reachable from the calculator):

* a lexer (`lex`) for Python tokens over the characters the calculator
  can meet: ASCII digits, `.`, `_`, letters (identifiers and the keyword
  constants `True`/`False`/`None`), the operators `+ - * /`, parentheses,
  spaces and tabs.  Numeric literals follow CPython: decimal integers and
  floats with optional single underscores between digits, optional
  exponent part, the leading-zero restriction on integer literals, and
  the `0x`/`0o`/`0b` radix prefixes.  A leading space or tab is a syntax
  error in `mode="eval"` (CPython raises `IndentationError`), which the
  lexer reproduces.  Out of model scope (all unreachable from the GUI
  and irrelevant to the claims): comments, string/bytes literals,
  newlines, non-ASCII text, complex literals.
* a recursive-descent parser (`parseE` etc.) for the Python expression
  fragment these tokens can form: numbers, keyword constants,
  identifiers with an optional call suffix, parenthesized expressions,
  chained unary `+`/`-`, and the left-associative binary `+ - * /` with
  the usual precedence.  Token sequences outside this fragment are
  syntax errors both here and in CPython.
* the whitelist walk `evalAst`, a line-by-line translation of the inner
  `_eval` of `_safe_evaluate`.

Numbers are modelled as exact rationals (`ℚ`): every Python float is a
rational, and all arithmetic appearing in the claims is exact.
Python's `float` results are thereby idealized to exact arithmetic;
IEEE-754 rounding itself is outside the model.
-/

unseal Rat.add Rat.mul Rat.inv Rat.sub

/-- Decidable equality for `Except`, so that concrete evaluator results
can be checked by `decide`. -/
instance {ε α : Type} [DecidableEq ε] [DecidableEq α] : DecidableEq (Except ε α) := fun a b =>
  match a, b with
  | .error e, .error e' =>
    if h : e = e' then .isTrue (congrArg _ h)
    else .isFalse (fun hh => h (Except.error.inj hh))
  | .ok v, .ok v' =>
    if h : v = v' then .isTrue (congrArg _ h)
    else .isFalse (fun hh => h (Except.ok.inj hh))
  | .error _, .ok _ => .isFalse Except.noConfusion
  | .ok _, .error _ => .isFalse Except.noConfusion

/-- The `ValueError` messages `_safe_evaluate` can raise:
`"Invalid expression"` (both for a `SyntaxError` from `ast.parse` and for
a non-whitelisted node), `"Only numbers allowed"` (a constant that is not
`int`/`float`), and `"Cannot divide by zero"`. -/
inductive Err where
  | invalidExpression
  | onlyNumbers
  | divByZero
deriving DecidableEq

abbrev Chars := List Char

/-- The Python tokens producible from the calculator's character set. -/
inductive Tok where
  | num (q : ℚ)
  | ident (s : Chars)
  | trueTok
  | falseTok
  | noneTok
  | plus
  | minus
  | star
  | slash
  | lparen
  | rparen
deriving DecidableEq

/-- Identifier start character: ASCII letter or underscore. -/
def isIdentStart (c : Char) : Bool := c.isAlpha || c = '_'

/-- Identifier continuation character. -/
def isIdentChar (c : Char) : Bool := c.isAlpha || c = '_' || c.isDigit

/-- Value of a (hex) digit character. -/
def charVal (c : Char) : ℕ :=
  if c.isDigit then c.toNat - 48
  else if 'a' ≤ c ∧ c ≤ 'f' then c.toNat - 87
  else if 'A' ≤ c ∧ c ≤ 'F' then c.toNat - 55
  else 0

/-- Big-endian digit-list value in base `b`. -/
def digitsVal (b : ℕ) (ds : Chars) : ℕ := ds.foldl (fun a c => b * a + charVal c) 0

/-- Consume the continuation of a digit run in which single underscores
may separate digits (CPython numeric-literal grammar
`digit (["_"] digit)*`); the first digit has already been consumed.
Returns the collected digits (underscores dropped) and the rest, or
`none` for a malformed underscore (CPython: "invalid decimal literal"). -/
def runTail (p : Char → Bool) : Chars → Option (Chars × Chars)
  | [] => some ([], [])
  | c :: cs =>
    if p c then (runTail p cs).map (fun pr => (c :: pr.1, pr.2))
    else if c = '_' then
      match cs with
      | c' :: cs' =>
        if p c' then (runTail p cs').map (fun pr => (c' :: pr.1, pr.2)) else none
      | [] => none
    else some ([], c :: cs)

/-- Consume an optional fraction part after the decimal point; CPython
allows it to be empty (`1.` is a valid float literal). -/
def lexFrac (cs : Chars) : Option (Chars × Chars) :=
  match cs with
  | c :: cs' =>
    if c.isDigit then
      match runTail Char.isDigit cs' with
      | some (ds, r) => some (c :: ds, r)
      | none => none
    else some ([], cs)
  | [] => some ([], [])

/-- Consume an optional exponent part `("e"|"E") ["+"|"-"] digits`.  When
the characters after `e` do not form an exponent the `e` is left in
place (it then lexes as an identifier, and the resulting adjacent tokens
are a syntax error, as in CPython). -/
def lexExp (cs : Chars) : Option (Bool × ℕ) × Chars :=
  match cs with
  | c :: cs' =>
    if c = 'e' ∨ c = 'E' then
      match cs' with
      | c' :: cs'' =>
        if c'.isDigit then
          match runTail Char.isDigit cs'' with
          | some (ds, r) => (some (false, digitsVal 10 (c' :: ds)), r)
          | none => (none, cs)
        else if c' = '+' ∨ c' = '-' then
          match cs'' with
          | c'' :: cs''' =>
            if c''.isDigit then
              match runTail Char.isDigit cs''' with
              | some (ds, r) => (some (c' = '-', digitsVal 10 (c'' :: ds)), r)
              | none => (none, cs)
            else (none, cs)
          | [] => (none, cs)
        else (none, cs)
      | [] => (none, cs)
    else (none, cs)
  | [] => (none, [])

/-- The rational value of a decimal literal with integer digits `intDs`,
fraction digits `fracDs` and optional exponent `ex`. -/
def numValue (intDs fracDs : Chars) (ex : Option (Bool × ℕ)) : ℚ :=
  let mant : ℚ := (digitsVal 10 intDs : ℚ) + (digitsVal 10 fracDs : ℚ) / 10 ^ fracDs.length
  match ex with
  | none => mant
  | some (neg, e) => if neg then mant / 10 ^ e else mant * 10 ^ e

/-- CPython's leading-zero restriction: a decimal *integer* literal may
not start with `0` unless all its digits are `0`. -/
def badLeadingZero (intDs fracDs : Chars) (sawDot : Bool) (ex : Option (Bool × ℕ)) : Bool :=
  decide (¬ sawDot) && decide (ex = none) && decide (fracDs = []) &&
    decide (intDs.head? = some '0') && intDs.any (fun c => decide (c ≠ '0'))

/-- Lex a decimal numeric literal whose first digit `c` has been
consumed; handles fraction, exponent and the leading-zero restriction. -/
def lexDecimal (c : Char) (cs : Chars) : Option (ℚ × Chars) :=
  match runTail Char.isDigit cs with
  | none => none
  | some (ds, r) =>
    let intDs := c :: ds
    match r with
    | '.' :: r' =>
      match lexFrac r' with
      | none => none
      | some (fracDs, r'') =>
        let (ex, r''') := lexExp r''
        some (numValue intDs fracDs ex, r''')
    | _ =>
      let (ex, r') := lexExp r
      if badLeadingZero intDs [] false ex then none
      else some (numValue intDs [] ex, r')

def isHexDigit (c : Char) : Bool := c.isDigit || ('a' ≤ c && c ≤ 'f') || ('A' ≤ c && c ≤ 'F')

def isOctDigit (c : Char) : Bool := '0' ≤ c && c ≤ '7'

def isBinDigit (c : Char) : Bool := c = '0' || c = '1'

/-- Lex a radix literal after its `0x`/`0o`/`0b` prefix; at least one
digit is required (CPython: "invalid hexadecimal literal" etc.). -/
def lexRadix (b : ℕ) (p : Char → Bool) (cs : Chars) : Option (ℚ × Chars) :=
  match cs with
  | c :: cs' =>
    if p c then
      match runTail p cs' with
      | some (ds, r) => some ((digitsVal b (c :: ds) : ℚ), r)
      | none => none
    else none
  | [] => none

/-- Lex one numeric literal starting with digit `c` (radix prefixes when
`c = '0'`, otherwise decimal). -/
def lexNumber (c : Char) (cs : Chars) : Option (ℚ × Chars) :=
  if c = '0' then
    match cs with
    | d :: cs' =>
      if d = 'x' ∨ d = 'X' then lexRadix 16 isHexDigit cs'
      else if d = 'o' ∨ d = 'O' then lexRadix 8 isOctDigit cs'
      else if d = 'b' ∨ d = 'B' then lexRadix 2 isBinDigit cs'
      else lexDecimal c cs
    | [] => lexDecimal c cs
  else lexDecimal c cs

/-- Keyword constants become their own tokens (`ast.parse` turns them
into `ast.Constant` nodes, not `ast.Name`). -/
def identTok (s : Chars) : Tok :=
  if s = ['T', 'r', 'u', 'e'] then .trueTok
  else if s = ['F', 'a', 'l', 's', 'e'] then .falseTok
  else if s = ['N', 'o', 'n', 'e'] then .noneTok
  else .ident s

/-- Fuelled lexer loop; every iteration consumes at least one character,
so fuel `length + 1` never runs out. -/
def lexL : ℕ → Chars → Option (List Tok)
  | 0, _ => none
  | _ + 1, [] => some []
  | f + 1, c :: cs =>
    if c = ' ' ∨ c = '\t' then lexL f cs
    else if c.isDigit then
      match lexNumber c cs with
      | some (q, r) =>
        match lexL f r with
        | some ts => some (.num q :: ts)
        | none => none
      | none => none
    else if c = '.' then
      match cs with
      | c' :: cs' =>
        if c'.isDigit then
          match runTail Char.isDigit cs' with
          | some (ds, r) =>
            let (ex, r') := lexExp r
            match lexL f r' with
            | some ts => some (.num (numValue [] (c' :: ds) ex) :: ts)
            | none => none
          | none => none
        else none
      | [] => none
    else if isIdentStart c then
      match runTail isIdentChar cs with
      | some (ds, r) =>
        match lexL f r with
        | some ts => some (identTok (c :: ds) :: ts)
        | none => none
      | none => none
    else if c = '+' then (lexL f cs).map (.plus :: ·)
    else if c = '-' then (lexL f cs).map (.minus :: ·)
    else if c = '*' then (lexL f cs).map (.star :: ·)
    else if c = '/' then (lexL f cs).map (.slash :: ·)
    else if c = '(' then (lexL f cs).map (.lparen :: ·)
    else if c = ')' then (lexL f cs).map (.rparen :: ·)
    else none

/-- The lexer.  A leading space or tab makes `ast.parse(·, mode="eval")`
raise `IndentationError` (a `SyntaxError`), modelled by failure here. -/
def lex (cs : Chars) : Option (List Tok) :=
  match cs with
  | c :: _ => if c = ' ' ∨ c = '\t' then none else lexL (cs.length + 1) cs
  | [] => some []

/-- Python unary operator nodes (`ast.UAdd`, `ast.USub`, `ast.Not`,
`ast.Invert`); `_eval` whitelists only the first two. -/
inductive PyUnaryOp where
  | uadd
  | usub
  | notOp
  | invertOp
deriving DecidableEq

/-- Python binary operator nodes; `_eval` whitelists `ast.Add`,
`ast.Sub`, `ast.Mult`, `ast.Div` only. -/
inductive PyBinOp where
  | add
  | sub
  | mult
  | div
  | powOp
  | modOp
  | floorDiv
deriving DecidableEq

/-- The `ast` node shapes reachable in this model (plus the operator
variants needed to state the whitelist): `ast.Expression`,
`ast.Constant` with an `int`/`float`, `bool` or `None` value,
`ast.Name`, `ast.Call` with zero or one argument, `ast.UnaryOp`,
`ast.BinOp`.  Parentheses leave no node behind (CPython). -/
inductive Ast where
  | expressionNode (body : Ast)
  | constNum (q : ℚ)
  | constBool (b : Bool)
  | constNone
  | nameNode (s : Chars)
  | callNode0 (f : Ast)
  | callNode1 (f : Ast) (arg : Ast)
  | unaryOp (op : PyUnaryOp) (operand : Ast)
  | binOp (op : PyBinOp) (left right : Ast)
deriving DecidableEq

/-! ## The parser

A fuelled recursive-descent parser for the CPython expression fragment
formable from `Tok`:

    expr   := term (('+'|'-') term)*        (left-associative)
    term   := factor (('*'|'/') factor)*    (left-associative)
    factor := ('+'|'-') factor | atom
    atom   := NUMBER | 'True' | 'False' | 'None'
            | NAME ['(' [expr] ')'] | '(' expr ')'

Every nested call decrements the fuel by exactly one; `parseFuel`
is generous enough that fuel never runs out (each descent step of the
longest possible call path consumes a token). -/

mutual

def parseAtom : ℕ → List Tok → Option (Ast × List Tok)
  | 0, _ => none
  | f + 1, ts =>
    match ts with
    | .num q :: r => some (.constNum q, r)
    | .trueTok :: r => some (.constBool true, r)
    | .falseTok :: r => some (.constBool false, r)
    | .noneTok :: r => some (.constNone, r)
    | .ident x :: r =>
      match r with
      | .lparen :: r' =>
        match r' with
        | .rparen :: r'' => some (.callNode0 (.nameNode x), r'')
        | _ =>
          match parseE f r' with
          | some (a, .rparen :: r'') => some (.callNode1 (.nameNode x) a, r'')
          | _ => none
      | _ => some (.nameNode x, r)
    | .lparen :: r =>
      match parseE f r with
      | some (t, .rparen :: r') => some (t, r')
      | _ => none
    | _ => none

def parseF : ℕ → List Tok → Option (Ast × List Tok)
  | 0, _ => none
  | f + 1, ts =>
    match ts with
    | .plus :: r =>
      match parseF f r with
      | some (e, r') => some (.unaryOp .uadd e, r')
      | none => none
    | .minus :: r =>
      match parseF f r with
      | some (e, r') => some (.unaryOp .usub e, r')
      | none => none
    | _ => parseAtom f ts

def parseT : ℕ → List Tok → Option (Ast × List Tok)
  | 0, _ => none
  | f + 1, ts =>
    match parseF f ts with
    | some (l, r) => parseTL f l r
    | none => none

def parseTL : ℕ → Ast → List Tok → Option (Ast × List Tok)
  | 0, _, _ => none
  | f + 1, l, ts =>
    match ts with
    | .star :: r =>
      match parseF f r with
      | some (x, r') => parseTL f (.binOp .mult l x) r'
      | none => none
    | .slash :: r =>
      match parseF f r with
      | some (x, r') => parseTL f (.binOp .div l x) r'
      | none => none
    | _ => some (l, ts)

def parseE : ℕ → List Tok → Option (Ast × List Tok)
  | 0, _ => none
  | f + 1, ts =>
    match parseT f ts with
    | some (l, r) => parseEL f l r
    | none => none

def parseEL : ℕ → Ast → List Tok → Option (Ast × List Tok)
  | 0, _, _ => none
  | f + 1, l, ts =>
    match ts with
    | .plus :: r =>
      match parseT f r with
      | some (x, r') => parseEL f (.binOp .add l x) r'
      | none => none
    | .minus :: r =>
      match parseT f r with
      | some (x, r') => parseEL f (.binOp .sub l x) r'
      | none => none
    | _ => some (l, ts)

end

/-- Ample fuel: call depth is bounded well below this bound. -/
def parseFuel (ts : List Tok) : ℕ := 8 * ts.length + 8

/-- Model of `ast.parse(expression, mode="eval")`: lex, parse one
expression, require all tokens consumed; wrap in `ast.Expression`.
`none` models `SyntaxError`. -/
def pyParse (s : String) : Option Ast :=
  match lex s.data with
  | none => none
  | some ts =>
    match parseE (parseFuel ts) ts with
    | some (t, []) => some (.expressionNode t)
    | _ => none

/-- The inner `_eval` of `_safe_evaluate`, translated clause by clause:
`ast.Expression` unwraps; numeric constants coerce with `float` (exact
here); `bool` passes the `isinstance(node.value, (int, float))` check
because `bool` is a subtype of `int`, so `True`/`False` evaluate to
`1.0`/`0.0`; any other constant raises "Only numbers allowed";
`UnaryOp` and `BinOp` are whitelisted to sign and `+ - * /`, a zero
divisor raising "Cannot divide by zero"; every other node raises
"Invalid expression". -/
def evalAst : Ast → Except Err ℚ
  | .expressionNode b => evalAst b
  | .constNum q => .ok q
  | .constBool b => .ok (if b then 1 else 0)
  | .constNone => .error .onlyNumbers
  | .unaryOp .uadd e =>
    match evalAst e with
    | .ok v => .ok v
    | .error e' => .error e'
  | .unaryOp .usub e =>
    match evalAst e with
    | .ok v => .ok (-v)
    | .error e' => .error e'
  | .unaryOp .notOp _ => .error .invalidExpression
  | .unaryOp .invertOp _ => .error .invalidExpression
  | .binOp .add l r =>
    match evalAst l with
    | .ok vl =>
      match evalAst r with
      | .ok vr => .ok (vl + vr)
      | .error e' => .error e'
    | .error e' => .error e'
  | .binOp .sub l r =>
    match evalAst l with
    | .ok vl =>
      match evalAst r with
      | .ok vr => .ok (vl - vr)
      | .error e' => .error e'
    | .error e' => .error e'
  | .binOp .mult l r =>
    match evalAst l with
    | .ok vl =>
      match evalAst r with
      | .ok vr => .ok (vl * vr)
      | .error e' => .error e'
    | .error e' => .error e'
  | .binOp .div l r =>
    match evalAst l with
    | .ok vl =>
      match evalAst r with
      | .ok vr => if vr = 0 then .error .divByZero else .ok (vl / vr)
      | .error e' => .error e'
    | .error e' => .error e'
  | .binOp .powOp _ _ => .error .invalidExpression
  | .binOp .modOp _ _ => .error .invalidExpression
  | .binOp .floorDiv _ _ => .error .invalidExpression
  | .nameNode _ => .error .invalidExpression
  | .callNode0 _ => .error .invalidExpression
  | .callNode1 _ _ => .error .invalidExpression

/-- `Calculator._safe_evaluate`: `ast.parse`, mapping `SyntaxError` to
`ValueError("Invalid expression")`, then the `_eval` walk. -/
def safeEvaluate (s : String) : Except Err ℚ :=
  match pyParse s with
  | none => .error .invalidExpression
  | some t => evalAst t

/-! ## Result formatting and the UI actions -/

/-- Character of a single digit. -/
def digitChar (d : ℕ) : Char := Char.ofNat (48 + d)

/-- Exactly `k` decimal digit characters of `m % 10 ^ k`, big-endian. -/
def natPad : ℕ → ℕ → Chars
  | 0, _ => []
  | k + 1, m => natPad k (m / 10) ++ [digitChar (m % 10)]

/-- Number of decimal digits of `n`: the least `k` with `n < 10 ^ k`
(so `0` for `n = 0`). -/
def digitCount (n : ℕ) : ℕ :=
  (((List.range (n + 1)).find? (fun k => decide (n < 10 ^ k))).getD 0)

/-- Decimal digit characters of `n`, big-endian, no leading zeros
(`['0']` for zero) — the digits `str(int(...))` prints. -/
def natDigits (n : ℕ) : Chars :=
  if n = 0 then ['0'] else natPad (digitCount n) n

/-- Digit characters of an integer, `'-'`-prefixed when negative. -/
def intStr (i : ℤ) : Chars :=
  if i < 0 then '-' :: natDigits i.natAbs else natDigits i.natAbs

/-- Least `k` with `d ∣ 10 ^ k`, when one exists (it is then at most
`d`, see `minExp_of_dvd`). -/
def minExp (d : ℕ) : Option ℕ := (List.range (d + 1)).find? (fun k => decide (d ∣ 10 ^ k))

/-- `Calculator._format_number`: an integral value prints as
`str(int(value))`, without a decimal point; any other value prints as
`str(value)`, the decimal expansion of the float.  Every float value is
a rational with terminating decimal expansion, which this model prints
exactly; on model-only rationals whose expansion does not terminate
(representable by no float, hence by no run of the source) it falls back
to a placeholder. -/
def formatNumber (v : ℚ) : String :=
  if v.den = 1 then ⟨intStr v.num⟩
  else
    match minExp v.den with
    | some k =>
      let n := v.num.natAbs * (10 ^ k / v.den)
      let ds := natDigits (n / 10 ^ k) ++ '.' :: natPad k (n % 10 ^ k)
      ⟨if v.num < 0 then '-' :: ds else ds⟩
    | none => "?"

/-- `Calculator._calculate` (the `=` button and the Return key), as a
function of the display buffer: an empty buffer returns immediately; an
evaluator `ValueError` pops an error dialog (the returned `Option Err`)
and leaves the buffer as it was; otherwise the buffer is replaced by the
formatted result. -/
def calculate (buf : String) : String × Option Err :=
  if buf = "" then (buf, none)
  else
    match safeEvaluate buf with
    | .error e => (buf, some e)
    | .ok v => (formatNumber v, none)

/-- `Calculator._negate` (the sign-toggle button): like `_calculate` but the
buffer is replaced by the formatted value of `-value`. -/
def negate (buf : String) : String × Option Err :=
  if buf = "" then (buf, none)
  else
    match safeEvaluate buf with
    | .error e => (buf, some e)
    | .ok v => (formatNumber (-v), none)

/-- `Calculator._percent` (the `%` button): like `_calculate` but the
buffer is replaced by the formatted value of `value / 100`. -/
def percent (buf : String) : String × Option Err :=
  if buf = "" then (buf, none)
  else
    match safeEvaluate buf with
    | .error e => (buf, some e)
    | .ok v => (formatNumber (v / 100), none)

/-! ## The specification grammars

Two token-level recognizers written from the spec's words, for the
refinement claims.  `specE` is the grammar as the spec states it:

    expr := term (('+'|'-') term)*, term := factor (('*'|'/') factor)*,
    factor := ('+'|'-')? (number)

`extE` is that grammar extended by exactly what the counterexamples to
claim C1 force: parenthesized subexpressions, arbitrarily many stacked
unary signs, and the keyword constants `True`/`False`:

    factor := ('+'|'-')* atom, atom := number | 'True' | 'False' | '(' expr ')'

Both mirror the parser's fuel discipline so that the refinement proof
aligns call by call.  Each function consumes a prefix of the token list
and returns the rest, or `none` when the prefix is not derivable. -/

mutual

def extAtom : ℕ → List Tok → Option (List Tok)
  | 0, _ => none
  | f + 1, ts =>
    match ts with
    | .num _ :: r => some r
    | .trueTok :: r => some r
    | .falseTok :: r => some r
    | .lparen :: r =>
      match extE f r with
      | some (.rparen :: r') => some r'
      | _ => none
    | _ => none

def extF : ℕ → List Tok → Option (List Tok)
  | 0, _ => none
  | f + 1, ts =>
    match ts with
    | .plus :: r => extF f r
    | .minus :: r => extF f r
    | _ => extAtom f ts

def extT : ℕ → List Tok → Option (List Tok)
  | 0, _ => none
  | f + 1, ts =>
    match extF f ts with
    | some r => extTL f r
    | none => none

def extTL : ℕ → List Tok → Option (List Tok)
  | 0, _ => none
  | f + 1, ts =>
    match ts with
    | .star :: r =>
      match extF f r with
      | some r' => extTL f r'
      | none => none
    | .slash :: r =>
      match extF f r with
      | some r' => extTL f r'
      | none => none
    | _ => some ts

def extE : ℕ → List Tok → Option (List Tok)
  | 0, _ => none
  | f + 1, ts =>
    match extT f ts with
    | some r => extEL f r
    | none => none

def extEL : ℕ → List Tok → Option (List Tok)
  | 0, _ => none
  | f + 1, ts =>
    match ts with
    | .plus :: r =>
      match extT f r with
      | some r' => extEL f r'
      | none => none
    | .minus :: r =>
      match extT f r with
      | some r' => extEL f r'
      | none => none
    | _ => some ts

end

/-- Membership in the extended grammar: the characters lex, and the
token list derives from `expr` with nothing left over. -/
def inExtGrammar (s : String) : Bool :=
  match lex s.data with
  | some ts =>
    match extE (parseFuel ts) ts with
    | some [] => true
    | _ => false
  | none => false

/-- `factor := ('+'|'-')? (number)` of the spec's literal grammar. -/
def specF (ts : List Tok) : Option (List Tok) :=
  match ts with
  | .plus :: .num _ :: r => some r
  | .minus :: .num _ :: r => some r
  | .num _ :: r => some r
  | _ => none

def specTL : ℕ → List Tok → Option (List Tok)
  | 0, _ => none
  | f + 1, ts =>
    match ts with
    | .star :: r =>
      match specF r with
      | some r' => specTL f r'
      | none => none
    | .slash :: r =>
      match specF r with
      | some r' => specTL f r'
      | none => none
    | _ => some ts

def specT (f : ℕ) (ts : List Tok) : Option (List Tok) :=
  match specF ts with
  | some r => specTL f r
  | none => none

def specEL : ℕ → List Tok → Option (List Tok)
  | 0, _ => none
  | f + 1, ts =>
    match ts with
    | .plus :: r =>
      match specT f r with
      | some r' => specEL f r'
      | none => none
    | .minus :: r =>
      match specT f r with
      | some r' => specEL f r'
      | none => none
    | _ => some ts

def specE (f : ℕ) (ts : List Tok) : Option (List Tok) :=
  match specT f ts with
  | some r => specEL f r
  | none => none

/-- Membership in the spec's literal grammar (no parentheses, at most
one sign per factor, numbers only). -/
def inSpecGrammar (s : String) : Bool :=
  match lex s.data with
  | some ts =>
    match specE (parseFuel ts) ts with
    | some [] => true
    | _ => false
  | none => false

/-- A tree on which the `_eval` walk succeeds. -/
def EvalOk (t : Ast) : Prop := ∃ v, evalAst t = .ok v

/-- The rationals with terminating decimal expansion, i.e. those of the
form `m / 10 ^ e` — exactly the values a Python float can denote (the
condition is equivalent to `∃ k, v.den ∣ 10 ^ k`: any such `v.den` is
`2 ^ a * 5 ^ b` with `a, b ≤ v.den`).  On these, `formatNumber` prints
the exact decimal expansion. -/
def Terminates (v : ℚ) : Prop := v.den ∣ 10 ^ v.den

instance (v : ℚ) : Decidable (Terminates v) := inferInstanceAs (Decidable (_ ∣ _))

/-- Refinement statement at `atom` level: whenever the parser accepts a
prefix producing a tree the whitelist walk accepts, the prefix derives
from the extended grammar's `atom`. -/
def AtomSound (f : ℕ) : Prop :=
  ∀ ts t r, parseAtom f ts = some (t, r) → EvalOk t → extAtom f ts = some r

/-- Refinement statement at `factor` level. -/
def FactorSound (f : ℕ) : Prop :=
  ∀ ts t r, parseF f ts = some (t, r) → EvalOk t → extF f ts = some r

/-- Refinement statement at `term` level. -/
def TermSound (f : ℕ) : Prop :=
  ∀ ts t r, parseT f ts = some (t, r) → EvalOk t → extT f ts = some r

/-- Refinement statement for the `term` operator loop; the accumulator
`l` sits on the left spine of the result, so its own evaluability
follows from the result's. -/
def TermLoopSound (f : ℕ) : Prop :=
  ∀ l ts t r, parseTL f l ts = some (t, r) → EvalOk t → EvalOk l ∧ extTL f ts = some r

/-- Refinement statement at `expr` level. -/
def ExprSound (f : ℕ) : Prop :=
  ∀ ts t r, parseE f ts = some (t, r) → EvalOk t → extE f ts = some r

/-- Refinement statement for the `expr` operator loop. -/
def ExprLoopSound (f : ℕ) : Prop :=
  ∀ l ts t r, parseEL f l ts = some (t, r) → EvalOk t → EvalOk l ∧ extEL f ts = some r

/-! ## Claim theorems and supporting lemmas -/

/-- C6: evaluating the empty string fails with `InvalidExpression`
(`ast.parse("")` raises `SyntaxError`, which `_safe_evaluate` converts
to `ValueError("Invalid expression")`); no number is returned. -/
theorem empty_string_invalid : safeEvaluate "" = .error .invalidExpression := by decide

/-- C9: when the display buffer is empty, the `=`, sign-toggle and `%`
actions are no-ops: each returns immediately (the evaluator is never
reached, as the guard precedes it in `_calculate`/`_negate`/`_percent`),
shows no error dialog, and leaves the buffer empty. -/
theorem empty_buffer_noop :
    calculate "" = ("", none) ∧ negate "" = ("", none) ∧ percent "" = ("", none) := by
  decide

/-- C7: `_safe_evaluate` is a pure function of its input string — it
touches no state and performs no IO (it only calls `ast.parse` and does
arithmetic), which is what lets this file model it as a total function;
determinism is then the statement that equal inputs give equal results
(the same number or the same error). -/
theorem evaluator_deterministic :
    ∀ s t : String, s = t → safeEvaluate s = safeEvaluate t := by
  intro s t h
  rw [h]

/-- Witness for C7 at the concrete input `"2+2"`. -/
theorem evaluator_deterministic_witness :
    safeEvaluate "2+2" = safeEvaluate "2+2" :=
  evaluator_deterministic "2+2" "2+2" rfl

/-- C2: a division whose divisor evaluates to zero errors with
`DivisionByZero` (the `ZeroDivisionError` handler around the `Div`
case), never producing a number (hence never an infinity); in
particular `"5/0"` so fails. -/
theorem division_by_zero_errors :
    (∀ l r vl, evalAst l = .ok vl → evalAst r = .ok 0 →
      evalAst (.binOp .div l r) = .error .divByZero) ∧
    (∀ l r v, evalAst (.binOp .div l r) = .ok v → evalAst r ≠ .ok 0) ∧
    safeEvaluate "5/0" = .error .divByZero := by
  refine ⟨?_, ?_, by decide⟩
  · intro l r vl hl hr
    simp [evalAst, hl, hr]
  · intro l r v h hr
    cases hl : evalAst l with
    | error e => simp [evalAst, hl] at h
    | ok vl => simp [evalAst, hl, hr] at h

/-- Witness for C2: the two universal parts applied at `5 / 0` (as an
AST) and at the failing evaluation of `"5/0"`. -/
theorem division_by_zero_errors_witness :
    evalAst (.binOp .div (.constNum 5) (.constNum 0)) = .error .divByZero ∧
    evalAst (.binOp .div (.constNum 5) (.constNum 0)) ≠ .ok 1 := by
  refine ⟨division_by_zero_errors.1 _ _ 5 (by decide) (by decide), ?_⟩
  intro h
  exact division_by_zero_errors.2.1 _ _ 1 h (by decide)

/-- C3: on whitelisted nodes `_eval` maps unary sign to arithmetic
identity/negation and the four binary operators to exact
add/subtract/multiply/divide (`truediv` when the divisor is nonzero);
every other operator node (`Not`, `Invert`, `Pow`, `Mod`, `FloorDiv`,
…) is rejected with `InvalidExpression`; and `evaluate("2+2")` yields
`4`, which `_format_number` renders as `"4"` with no decimal point. -/
theorem operator_semantics :
    (∀ e v, evalAst e = .ok v →
      evalAst (.unaryOp .usub e) = .ok (-v) ∧ evalAst (.unaryOp .uadd e) = .ok v) ∧
    (∀ l r vl vr, evalAst l = .ok vl → evalAst r = .ok vr →
      evalAst (.binOp .add l r) = .ok (vl + vr) ∧
      evalAst (.binOp .sub l r) = .ok (vl - vr) ∧
      evalAst (.binOp .mult l r) = .ok (vl * vr) ∧
      (vr ≠ 0 → evalAst (.binOp .div l r) = .ok (vl / vr))) ∧
    (∀ e, evalAst (.unaryOp .notOp e) = .error .invalidExpression ∧
      evalAst (.unaryOp .invertOp e) = .error .invalidExpression) ∧
    (∀ l r, evalAst (.binOp .powOp l r) = .error .invalidExpression ∧
      evalAst (.binOp .modOp l r) = .error .invalidExpression ∧
      evalAst (.binOp .floorDiv l r) = .error .invalidExpression) ∧
    safeEvaluate "2+2" = .ok 4 ∧ formatNumber 4 = "4" ∧ calculate "2+2" = ("4", none) := by
  refine ⟨?_, ?_, ?_, ?_, by decide, by decide, by decide⟩
  · intro e v he
    exact ⟨by simp [evalAst, he], by simp [evalAst, he]⟩
  · intro l r vl vr hl hr
    refine ⟨by simp [evalAst, hl, hr], by simp [evalAst, hl, hr],
      by simp [evalAst, hl, hr], ?_⟩
    intro hvr
    simp [evalAst, hl, hr, hvr]
  · intro e
    exact ⟨rfl, rfl⟩
  · intro l r
    exact ⟨rfl, rfl, rfl⟩

/-- Witness for C3: the operator clauses applied at concrete leaves. -/
theorem operator_semantics_witness :
    evalAst (.unaryOp .usub (.constNum 2)) = .ok (-2) ∧
    evalAst (.binOp .add (.constNum 2) (.constNum 3)) = .ok 5 ∧
    evalAst (.binOp .div (.constNum 1) (.constNum 3)) = .ok (1 / 3) := by
  refine ⟨(operator_semantics.1 (.constNum 2) 2 (by decide)).1, ?_, ?_⟩
  · have h :=
      (operator_semantics.2.1 (.constNum 2) (.constNum 3) 2 3 (by decide) (by decide)).1
    simpa using h
  · have h :=
      (operator_semantics.2.1 (.constNum 1) (.constNum 3) 1 3 (by decide)
        (by decide)).2.2.2 (by norm_num)
    simpa using h

/-- C10: on a non-empty buffer whose contents evaluate to `v`, the `%`
action replaces the buffer with the formatted value of `v / 100` and
shows no error. -/
theorem percent_divides_by_hundred :
    ∀ (s : String) (v : ℚ), s ≠ "" → safeEvaluate s = .ok v →
      percent s = (formatNumber (v / 100), none) := by
  intro s v hne hv
  simp [percent, hne, hv]

/-- Witness for C10 at the buffer `"50"`: the result `50 / 100` is
formatted as `"0.5"`. -/
theorem percent_divides_by_hundred_witness :
    percent "50" = (formatNumber ((50 : ℚ) / 100), none) ∧
    formatNumber ((50 : ℚ) / 100) = "0.5" :=
  ⟨percent_divides_by_hundred "50" 50 (by decide) (by decide), by decide⟩

/-- Counterexample to C5 as stated: the empty buffer is a buffer
content on which evaluation fails (`_safe_evaluate("")` raises
`InvalidExpression`), yet the `=` action surfaces no error — it
returns before invoking the evaluator — so "the error is surfaced to
the user" fails at this input (the buffer is indeed unmodified). -/
theorem error_surfacing_counterexample :
    safeEvaluate "" = .error .invalidExpression ∧
    calculate "" = ("", none) ∧
    calculate "" ≠ ("", some Err.invalidExpression) := by
  decide

/-- C5 (amended to non-empty buffers): for every non-empty buffer
content on which evaluation fails, each of the `=`, sign-toggle and `%`
actions surfaces that very error in a dialog and leaves the buffer
unmodified — the failed action changes no state. -/
theorem error_leaves_buffer_unchanged :
    ∀ (s : String) (e : Err), s ≠ "" → safeEvaluate s = .error e →
      calculate s = (s, some e) ∧ negate s = (s, some e) ∧ percent s = (s, some e) := by
  intro s e hne he
  refine ⟨?_, ?_, ?_⟩ <;> simp [calculate, negate, percent, hne, he]

/-- Witness for C5 at the failing buffer `"1.2.3"`. -/
theorem error_leaves_buffer_unchanged_witness :
    calculate "1.2.3" = ("1.2.3", some Err.invalidExpression) ∧
    negate "1.2.3" = ("1.2.3", some Err.invalidExpression) ∧
    percent "1.2.3" = ("1.2.3", some Err.invalidExpression) :=
  error_leaves_buffer_unchanged "1.2.3" .invalidExpression (by decide) (by decide)

/-- Counterexample to C1 as stated: three inputs outside the spec's
grammar `expr := term (('+'|'-') term)*, term := factor (('*'|'/')
factor)*, factor := ('+'|'-')? (number)` on which the evaluator
nevertheless returns a number: a parenthesized expression (CPython's
parser accepts and erases parentheses), stacked unary signs (CPython's
`factor` is recursive), and the keyword `True` (an `ast.Constant` whose
`bool` value passes the `isinstance(node.value, (int, float))` check
because `bool` subtypes `int`). -/
theorem grammar_rejection_counterexample :
    (inSpecGrammar "3*(2+1)" = false ∧ safeEvaluate "3*(2+1)" = .ok 9) ∧
    (inSpecGrammar "--5" = false ∧ safeEvaluate "--5" = .ok 5) ∧
    (inSpecGrammar "True" = false ∧ safeEvaluate "True" = .ok 1) := by
  decide
/-- A unary node that evaluates successfully has a successfully
evaluating operand (non-whitelisted unary operators never succeed). -/
theorem evalOk_unaryOp {op : PyUnaryOp} {e : Ast} {v : ℚ}
    (h : evalAst (.unaryOp op e) = .ok v) : EvalOk e := by
  cases op with
  | uadd =>
    cases he : evalAst e with
    | ok w => exact ⟨w, he⟩
    | error err => simp [evalAst, he] at h
  | usub =>
    cases he : evalAst e with
    | ok w => exact ⟨w, he⟩
    | error err => simp [evalAst, he] at h
  | notOp => simp [evalAst] at h
  | invertOp => simp [evalAst] at h

/-- A binary node that evaluates successfully has successfully
evaluating children (non-whitelisted binary operators never succeed,
and the whitelisted ones evaluate both children first). -/
theorem evalOk_binOp {op : PyBinOp} {l r : Ast} {v : ℚ}
    (h : evalAst (.binOp op l r) = .ok v) : EvalOk l ∧ EvalOk r := by
  cases op
  case powOp => simp [evalAst] at h
  case modOp => simp [evalAst] at h
  case floorDiv => simp [evalAst] at h
  all_goals
    cases hl : evalAst l with
    | error e => simp [evalAst, hl] at h
    | ok vl =>
      cases hr : evalAst r with
      | error e => simp [evalAst, hl, hr] at h
      | ok vr => exact ⟨⟨vl, hl⟩, ⟨vr, hr⟩⟩

/-- Induction step of the refinement at `atom` level: `Name`, `Call`
and `None` results never survive the whitelist walk, so only numbers,
booleans and parenthesized expressions remain. -/
theorem atomSound_step (f : ℕ) (ihE : ExprSound f) : AtomSound (f + 1) := by
  intro ts t r hp hok
  cases ts with
  | nil => simp [parseAtom] at hp
  | cons c rest =>
    cases c
    case num q =>
      simp only [parseAtom, Option.some.injEq, Prod.mk.injEq] at hp
      obtain ⟨ht, hr⟩ := hp
      subst ht hr
      simp [extAtom]
    case trueTok =>
      simp only [parseAtom, Option.some.injEq, Prod.mk.injEq] at hp
      obtain ⟨ht, hr⟩ := hp
      subst ht hr
      simp [extAtom]
    case falseTok =>
      simp only [parseAtom, Option.some.injEq, Prod.mk.injEq] at hp
      obtain ⟨ht, hr⟩ := hp
      subst ht hr
      simp [extAtom]
    case noneTok =>
      simp only [parseAtom, Option.some.injEq, Prod.mk.injEq] at hp
      obtain ⟨ht, hr⟩ := hp
      subst ht
      obtain ⟨v, hv⟩ := hok
      simp [evalAst] at hv
    case ident x =>
      simp only [parseAtom] at hp
      split at hp
      · split at hp
        · simp only [Option.some.injEq, Prod.mk.injEq] at hp
          obtain ⟨ht, hr⟩ := hp
          subst ht
          obtain ⟨v, hv⟩ := hok
          simp [evalAst] at hv
        · split at hp
          · simp only [Option.some.injEq, Prod.mk.injEq] at hp
            obtain ⟨ht, hr⟩ := hp
            subst ht
            obtain ⟨v, hv⟩ := hok
            simp [evalAst] at hv
          · exact Option.noConfusion hp
      · simp only [Option.some.injEq, Prod.mk.injEq] at hp
        obtain ⟨ht, hr⟩ := hp
        subst ht
        obtain ⟨v, hv⟩ := hok
        simp [evalAst] at hv
    case lparen =>
      simp only [parseAtom] at hp
      split at hp
      next t' r' heq =>
        simp only [Option.some.injEq, Prod.mk.injEq] at hp
        obtain ⟨ht, hr⟩ := hp
        subst ht hr
        have hext := ihE _ _ _ heq hok
        simp [extAtom, hext]
      next => exact Option.noConfusion hp
    all_goals simp [parseAtom] at hp

/-- Induction step of the refinement at `factor` level. -/
theorem factorSound_step (f : ℕ) (ihA : AtomSound f) (ihF : FactorSound f) :
    FactorSound (f + 1) := by
  intro ts t r hp hok
  cases ts with
  | nil =>
    simp only [parseF] at hp
    simp only [extF]
    exact ihA _ _ _ hp hok
  | cons c rest =>
    cases c
    case plus =>
      simp only [parseF] at hp
      split at hp
      next e r' heq =>
        simp only [Option.some.injEq, Prod.mk.injEq] at hp
        obtain ⟨ht, hr⟩ := hp
        subst ht hr
        obtain ⟨v, hv⟩ := hok
        have hoke := evalOk_unaryOp hv
        simp only [extF]
        exact ihF _ _ _ heq hoke
      next => exact Option.noConfusion hp
    case minus =>
      simp only [parseF] at hp
      split at hp
      next e r' heq =>
        simp only [Option.some.injEq, Prod.mk.injEq] at hp
        obtain ⟨ht, hr⟩ := hp
        subst ht hr
        obtain ⟨v, hv⟩ := hok
        have hoke := evalOk_unaryOp hv
        simp only [extF]
        exact ihF _ _ _ heq hoke
      next => exact Option.noConfusion hp
    all_goals
      simp only [parseF] at hp
      simp only [extF]
      exact ihA _ _ _ hp hok

/-- Induction step of the refinement at `term` level. -/
theorem termSound_step (f : ℕ) (ihF : FactorSound f) (ihTL : TermLoopSound f) :
    TermSound (f + 1) := by
  intro ts t r hp hok
  simp only [parseT] at hp
  split at hp
  next l r1 heq =>
    obtain ⟨hokl, hext⟩ := ihTL _ _ _ _ hp hok
    have hextF := ihF _ _ _ heq hokl
    simp only [extT, hextF]
    exact hext
  next => exact Option.noConfusion hp

/-- Induction step of the refinement for the `term` operator loop. -/
theorem termLoopSound_step (f : ℕ) (ihF : FactorSound f) (ihTL : TermLoopSound f) :
    TermLoopSound (f + 1) := by
  intro l ts t r hp hok
  cases ts with
  | nil =>
    simp only [parseTL, Option.some.injEq, Prod.mk.injEq] at hp
    obtain ⟨ht, hr⟩ := hp
    subst ht hr
    exact ⟨hok, by simp [extTL]⟩
  | cons c rest =>
    cases c
    case star =>
      simp only [parseTL] at hp
      split at hp
      next x r' heq =>
        obtain ⟨hokbin, hext⟩ := ihTL _ _ _ _ hp hok
        obtain ⟨v, hv⟩ := hokbin
        obtain ⟨hokl, hokx⟩ := evalOk_binOp hv
        have hextF := ihF _ _ _ heq hokx
        refine ⟨hokl, ?_⟩
        simp only [extTL, hextF]
        exact hext
      next => exact Option.noConfusion hp
    case slash =>
      simp only [parseTL] at hp
      split at hp
      next x r' heq =>
        obtain ⟨hokbin, hext⟩ := ihTL _ _ _ _ hp hok
        obtain ⟨v, hv⟩ := hokbin
        obtain ⟨hokl, hokx⟩ := evalOk_binOp hv
        have hextF := ihF _ _ _ heq hokx
        refine ⟨hokl, ?_⟩
        simp only [extTL, hextF]
        exact hext
      next => exact Option.noConfusion hp
    all_goals
      simp only [parseTL, Option.some.injEq, Prod.mk.injEq] at hp
      obtain ⟨ht, hr⟩ := hp
      subst ht hr
      exact ⟨hok, by simp [extTL]⟩

/-- Induction step of the refinement at `expr` level. -/
theorem exprSound_step (f : ℕ) (ihT : TermSound f) (ihEL : ExprLoopSound f) :
    ExprSound (f + 1) := by
  intro ts t r hp hok
  simp only [parseE] at hp
  split at hp
  next l r1 heq =>
    obtain ⟨hokl, hext⟩ := ihEL _ _ _ _ hp hok
    have hextT := ihT _ _ _ heq hokl
    simp only [extE, hextT]
    exact hext
  next => exact Option.noConfusion hp

/-- Induction step of the refinement for the `expr` operator loop. -/
theorem exprLoopSound_step (f : ℕ) (ihT : TermSound f) (ihEL : ExprLoopSound f) :
    ExprLoopSound (f + 1) := by
  intro l ts t r hp hok
  cases ts with
  | nil =>
    simp only [parseEL, Option.some.injEq, Prod.mk.injEq] at hp
    obtain ⟨ht, hr⟩ := hp
    subst ht hr
    exact ⟨hok, by simp [extEL]⟩
  | cons c rest =>
    cases c
    case plus =>
      simp only [parseEL] at hp
      split at hp
      next x r' heq =>
        obtain ⟨hokbin, hext⟩ := ihEL _ _ _ _ hp hok
        obtain ⟨v, hv⟩ := hokbin
        obtain ⟨hokl, hokx⟩ := evalOk_binOp hv
        have hextT := ihT _ _ _ heq hokx
        refine ⟨hokl, ?_⟩
        simp only [extEL, hextT]
        exact hext
      next => exact Option.noConfusion hp
    case minus =>
      simp only [parseEL] at hp
      split at hp
      next x r' heq =>
        obtain ⟨hokbin, hext⟩ := ihEL _ _ _ _ hp hok
        obtain ⟨v, hv⟩ := hokbin
        obtain ⟨hokl, hokx⟩ := evalOk_binOp hv
        have hextT := ihT _ _ _ heq hokx
        refine ⟨hokl, ?_⟩
        simp only [extEL, hextT]
        exact hext
      next => exact Option.noConfusion hp
    all_goals
      simp only [parseEL, Option.some.injEq, Prod.mk.injEq] at hp
      obtain ⟨ht, hr⟩ := hp
      subst ht hr
      exact ⟨hok, by simp [extEL]⟩

/-- The parser-to-grammar refinement at every fuel: a parse that
yields a whitelist-surviving tree consumes a prefix derivable in the
extended grammar. -/
theorem parser_sound : ∀ f, AtomSound f ∧ FactorSound f ∧ TermSound f ∧
    TermLoopSound f ∧ ExprSound f ∧ ExprLoopSound f := by
  intro f
  induction f with
  | zero =>
    refine ⟨?_, ?_, ?_, ?_, ?_, ?_⟩
    · intro ts t r hp hok
      simp [parseAtom] at hp
    · intro ts t r hp hok
      simp [parseF] at hp
    · intro ts t r hp hok
      simp [parseT] at hp
    · intro l ts t r hp hok
      simp [parseTL] at hp
    · intro ts t r hp hok
      simp [parseE] at hp
    · intro l ts t r hp hok
      simp [parseEL] at hp
  | succ f ih =>
    obtain ⟨ihA, ihF, ihT, ihTL, ihE, ihEL⟩ := ih
    exact ⟨atomSound_step f ihE, factorSound_step f ihA ihF,
      termSound_step f ihF ihTL, termLoopSound_step f ihF ihTL,
      exprSound_step f ihT ihEL, exprLoopSound_step f ihT ihEL⟩

/-- C1 (amended by `grammar_rejection_counterexample`): every input on
which the evaluator returns a number lies in the spec grammar extended
with parenthesized subexpressions, stacked unary signs, and the keyword
constants `True`/`False`; contrapositively, every input outside that
extended grammar -- identifiers, function calls, numbers with multiple
decimal points, ... -- fails with an error rather than returning a
number, as the three concrete conjuncts illustrate. -/
theorem outside_grammar_errors :
    (∀ (s : String) (v : ℚ), safeEvaluate s = .ok v → inExtGrammar s = true) ∧
    safeEvaluate "x" = .error .invalidExpression ∧
    safeEvaluate "f(2)" = .error .invalidExpression ∧
    safeEvaluate "1.2.3" = .error .invalidExpression := by
  refine ⟨?_, by decide, by decide, by decide⟩
  intro s v h
  simp only [safeEvaluate, pyParse] at h
  cases hlex : lex s.data with
  | none => simp [hlex] at h
  | some ts =>
    simp only [hlex] at h
    cases hpe : parseE (parseFuel ts) ts with
    | none => simp [hpe] at h
    | some pr =>
      obtain ⟨t, rest⟩ := pr
      cases rest with
      | nil =>
        simp only [hpe] at h
        have hok : EvalOk t := ⟨v, h⟩
        have hext := (parser_sound (parseFuel ts)).2.2.2.2.1 _ _ _ hpe hok
        simp [inExtGrammar, hlex, hext]
      | cons c rest' => simp [hpe] at h

/-- Witness for C1: the universal part applied at the in-grammar input
`"2+2"`, whose evaluation succeeds. -/
theorem outside_grammar_errors_witness : inExtGrammar "2+2" = true :=
  outside_grammar_errors.1 "2+2" 4 (by decide)

/-- `List.find?` over a range returns an element satisfying the
predicate. -/
theorem find?_range_prop {p : ℕ → Bool} {m k : ℕ}
    (h : (List.range m).find? p = some k) : p k = true :=
  List.find?_some h

/-- `digitChar` of a digit is a digit character. -/
theorem digitChar_isDigit {d : ℕ} (h : d < 10) : (digitChar d).isDigit = true := by
  interval_cases d <;> decide

/-- `charVal` inverts `digitChar` on digits. -/
theorem charVal_digitChar {d : ℕ} (h : d < 10) : charVal (digitChar d) = d := by
  interval_cases d <;> decide

/-- `digitChar` hits `'0'` only at `0`. -/
theorem digitChar_eq_zero {d : ℕ} (h : d < 10) : digitChar d = '0' ↔ d = 0 := by
  interval_cases d <;> simp <;> decide

/-- Digit characters are not whitespace. -/
theorem isDigit_not_space {c : Char} (h : c.isDigit = true) : ¬(c = ' ' ∨ c = '\t') := by
  rintro (rfl | rfl) <;> simp at h

/-- `runTail` consumes exactly a run of satisfying characters when the
remainder starts with a non-satisfying, non-underscore character (or is
empty). -/
theorem runTail_append {p : Char → Bool} {D r : Chars}
    (hD : ∀ c ∈ D, p c = true)
    (hr : r = [] ∨ ∃ c cs, r = c :: cs ∧ p c = false ∧ c ≠ '_') :
    runTail p (D ++ r) = some (D, r) := by
  induction D with
  | nil =>
    rcases hr with rfl | ⟨c, cs, rfl, hpc, hc⟩
    · rfl
    · unfold runTail
      simp [hpc, hc]
  | cons d D ih =>
    have hd : p d = true := hD d (by simp)
    have ih' := ih (fun c hc => hD c (by simp [hc]))
    unfold runTail
    simp [hd, ih']

/-- Unfolding of the `digitsVal` fold from an arbitrary accumulator. -/
theorem digitsVal_foldl (b : ℕ) : ∀ (B : Chars) (a : ℕ),
    B.foldl (fun x c => b * x + charVal c) a = a * b ^ B.length + digitsVal b B := by
  intro B
  induction B with
  | nil => intro a; simp [digitsVal]
  | cons c B ih =>
    intro a
    simp only [List.foldl_cons, List.length_cons]
    rw [ih (b * a + charVal c)]
    have hv : digitsVal b (c :: B) = charVal c * b ^ B.length + digitsVal b B := by
      unfold digitsVal
      simp only [List.foldl_cons]
      rw [show b * 0 + charVal c = charVal c by ring]
      exact ih (charVal c)
    rw [hv]
    ring

/-- `digitsVal` of a concatenation. -/
theorem digitsVal_append (b : ℕ) (A B : Chars) :
    digitsVal b (A ++ B) = digitsVal b A * b ^ B.length + digitsVal b B := by
  unfold digitsVal
  rw [List.foldl_append, digitsVal_foldl]
  rfl

/-- `natPad k` always yields `k` characters. -/
theorem natPad_length (k m : ℕ) : (natPad k m).length = k := by
  induction k generalizing m with
  | zero => rfl
  | succ k ih => simp [natPad, ih]

/-- `natPad` yields digit characters. -/
theorem natPad_isDigit (k m : ℕ) : ∀ c ∈ natPad k m, c.isDigit = true := by
  induction k generalizing m with
  | zero => intro c hc; simp [natPad] at hc
  | succ k ih =>
    intro c hc
    simp only [natPad, List.mem_append, List.mem_singleton] at hc
    rcases hc with hc | rfl
    · exact ih _ c hc
    · exact digitChar_isDigit (Nat.mod_lt _ (by norm_num))

/-- The value of the `k`-digit padded print of `m` is `m % 10 ^ k`. -/
theorem natPad_val (k m : ℕ) : digitsVal 10 (natPad k m) = m % 10 ^ k := by
  induction k generalizing m with
  | zero => simp [natPad, digitsVal, Nat.mod_one]
  | succ k ih =>
    rw [natPad, digitsVal_append, ih]
    have h1 : digitsVal 10 [digitChar (m % 10)] = m % 10 := by
      unfold digitsVal
      simp [charVal_digitChar (Nat.mod_lt m (by norm_num))]
    rw [h1]
    simp only [List.length_singleton, pow_one]
    rw [pow_succ', Nat.mod_mul]
    ring

/-- `n` is below `10 ^ digitCount n`. -/
theorem digitCount_spec (n : ℕ) : n < 10 ^ digitCount n := by
  unfold digitCount
  cases hf : (List.range (n + 1)).find? (fun k => decide (n < 10 ^ k)) with
  | some k =>
    have := find?_range_prop hf
    simpa using this
  | none =>
    exfalso
    have hmem : n ∈ List.range (n + 1) := List.self_mem_range_succ n
    have hcontra := List.find?_eq_none.mp hf n hmem
    simp only [decide_eq_true_eq] at hcontra
    have hn : n < 10 ^ n := by
      calc n < 2 ^ n := Nat.lt_two_pow n
        _ ≤ 10 ^ n := Nat.pow_le_pow_left (by norm_num) n
    exact hcontra hn

/-- `List.find?` over a range returns the least satisfying index. -/
theorem find?_range_min {p : ℕ → Bool} : ∀ {m k : ℕ},
    (List.range m).find? p = some k → ∀ j < k, p j = false := by
  intro m
  induction m with
  | zero => intro k h; simp at h
  | succ m ih =>
    intro k h j hj
    rw [List.range_succ, List.find?_append] at h
    cases hf : (List.range m).find? p with
    | some k' =>
      rw [hf] at h
      simp only [Option.or] at h
      obtain rfl := Option.some.inj h
      exact ih hf j hj
    | none =>
      rw [hf] at h
      simp only [Option.or] at h
      by_cases hpm : p m = true
      · have hk : m = k := by
          simpa [List.find?, hpm] using h
        subst hk
        rw [Bool.eq_false_iff]
        exact List.find?_eq_none.mp hf j (List.mem_range.mpr hj)
      · rw [Bool.not_eq_true] at hpm
        simp [List.find?, hpm] at h

/-- Minimality of `digitCount`. -/
theorem digitCount_min {n j : ℕ} (hj : j < digitCount n) : 10 ^ j ≤ n := by
  unfold digitCount at hj
  cases hf : (List.range (n + 1)).find? (fun k => decide (n < 10 ^ k)) with
  | some k =>
    rw [hf] at hj
    simp only [Option.getD_some] at hj
    have := find?_range_min hf j hj
    simp only [decide_eq_false_iff_not, not_lt] at this
    exact this
  | none =>
    rw [hf] at hj
    simp at hj
  
/-- The printed digits of a natural number are never empty. -/
theorem natDigits_ne_nil (n : ℕ) : natDigits n ≠ [] := by
  unfold natDigits
  by_cases hn : n = 0
  · simp [hn]
  · simp only [hn, if_false]
    intro hcontra
    have hlen := natPad_length (digitCount n) n
    rw [hcontra] at hlen
    simp at hlen
    have hspec := digitCount_spec n
    rw [← hlen] at hspec
    simp at hspec
    omega

/-- The printed digits of a natural number are digit characters. -/
theorem natDigits_isDigit (n : ℕ) : ∀ c ∈ natDigits n, c.isDigit = true := by
  unfold natDigits
  by_cases hn : n = 0
  · simp [hn]
  · simp only [hn, if_false]
    exact natPad_isDigit _ _

/-- Reading back the printed digits of `n` recovers `n`. -/
theorem natDigits_val (n : ℕ) : digitsVal 10 (natDigits n) = n := by
  unfold natDigits
  by_cases hn : n = 0
  · simp [hn]
    decide
  · simp only [hn, if_false]
    rw [natPad_val]
    exact Nat.mod_eq_of_lt (digitCount_spec n)

/-- The leading character of a padded digit print. -/
theorem natPad_head {k m : ℕ} : (natPad (k + 1) m).head? = some (digitChar (m / 10 ^ k % 10)) := by
  induction k generalizing m with
  | zero => simp [natPad]
  | succ k ih =>
    have hne : natPad (k + 1) (m / 10) ≠ [] := by
      intro hcontra
      have := natPad_length (k + 1) (m / 10)
      rw [hcontra] at this
      simp at this
    rw [show natPad (k + 1 + 1) m = natPad (k + 1) (m / 10) ++ [digitChar (m % 10)] from rfl]
    rw [List.head?_append_of_ne_nil _ hne, ih]
    rw [Nat.div_div_eq_div_mul, ← pow_succ']

/-- The decimal print of a positive number has no leading zero. -/
theorem natDigits_head_ne_zero {n : ℕ} (hn : n ≠ 0) :
    ∀ c, (natDigits n).head? = some c → c ≠ '0' := by
  intro c hc
  unfold natDigits at hc
  rw [if_neg hn] at hc
  obtain ⟨k, hk⟩ : ∃ k, digitCount n = k + 1 := by
    rcases hd : digitCount n with _ | k
    · exfalso
      have := digitCount_spec n
      rw [hd] at this
      simp at this
      omega
    · exact ⟨k, rfl⟩
  rw [hk, natPad_head] at hc
  obtain rfl := Option.some.inj hc
  have hlow : 10 ^ k ≤ n := digitCount_min (by omega)
  have hhigh : n < 10 ^ (k + 1) := by
    have := digitCount_spec n
    rwa [hk] at this
  have hq1 : 1 ≤ n / 10 ^ k := (Nat.one_le_div_iff (Nat.pos_pow_of_pos k (by norm_num))).mpr hlow
  have hq9 : n / 10 ^ k < 10 := by
    rw [Nat.div_lt_iff_lt_mul (Nat.pos_pow_of_pos k (by norm_num))]
    calc n < 10 ^ (k + 1) := hhigh
      _ = 10 * 10 ^ k := by ring
      _ ≤ 10 * 10 ^ k := le_refl _
  have hmod : n / 10 ^ k % 10 = n / 10 ^ k := Nat.mod_eq_of_lt hq9
  rw [hmod]
  rw [Ne, digitChar_eq_zero hq9]
  omega

/-- The value of an integer literal with no fraction or exponent. -/
theorem numValue_int (D : Chars) : numValue D [] none = (digitsVal 10 D : ℚ) := by
  simp [numValue, digitsVal]

/-- The value of a decimal literal with no exponent. -/
theorem numValue_dec (D1 D2 : Chars) :
    numValue D1 D2 none = (digitsVal 10 D1 : ℚ) + (digitsVal 10 D2 : ℚ) / 10 ^ D2.length := by
  simp [numValue]

/-- Digit characters are not radix prefix letters. -/
theorem isDigit_ne_radix {c : Char} (h : c.isDigit = true) :
    ¬(c = 'x' ∨ c = 'X') ∧ ¬(c = 'o' ∨ c = 'O') ∧ ¬(c = 'b' ∨ c = 'B') := by
  refine ⟨?_, ?_, ?_⟩ <;> rintro (rfl | rfl) <;> simp at h

/-- `lexNumber` on a pure run of digits (no leading-zero violation)
yields one integer literal consuming everything. -/
theorem lexNumber_int (c : Char) (cs : Chars)
    (hc : c.isDigit = true) (hcs : ∀ x ∈ cs, x.isDigit = true)
    (hlz : badLeadingZero (c :: cs) [] false none = false) :
    lexNumber c cs = some (numValue (c :: cs) [] none, []) := by
  have hrun : runTail Char.isDigit (cs ++ []) = some (cs, []) :=
    runTail_append hcs (Or.inl rfl)
  rw [List.append_nil] at hrun
  have hdec : lexDecimal c cs = some (numValue (c :: cs) [] none, []) := by
    unfold lexDecimal
    rw [hrun]
    simp [lexExp, hlz]
  unfold lexNumber
  by_cases hc0 : c = '0'
  · subst hc0
    cases cs with
    | nil => exact hdec
    | cons d ds =>
      have hd : d.isDigit = true := hcs d (by simp)
      obtain ⟨h1, h2, h3⟩ := isDigit_ne_radix hd
      simp only [if_pos rfl, h1, h2, h3, if_false]
      exact hdec
  · rw [if_neg hc0]
    exact hdec

/-- `lexNumber` on digits, a point, and more digits yields one float
literal consuming everything (no leading-zero restriction applies to
floats). -/
theorem lexNumber_dec (c : Char) (cs1 D2 : Chars)
    (hc : c.isDigit = true) (hcs1 : ∀ x ∈ cs1, x.isDigit = true)
    (hD2 : ∀ x ∈ D2, x.isDigit = true) :
    lexNumber c (cs1 ++ '.' :: D2) = some (numValue (c :: cs1) D2 none, []) := by
  have hrun : runTail Char.isDigit (cs1 ++ '.' :: D2) = some (cs1, '.' :: D2) :=
    runTail_append hcs1 (Or.inr ⟨'.', D2, rfl, by decide, by decide⟩)
  have hfrac : lexFrac D2 = some (D2, []) := by
    cases D2 with
    | nil => rfl
    | cons d ds =>
      have hd := hD2 d (by simp)
      have hrun2 : runTail Char.isDigit (ds ++ []) = some (ds, []) :=
        runTail_append (fun x hx => hD2 x (by simp [hx])) (Or.inl rfl)
      rw [List.append_nil] at hrun2
      unfold lexFrac
      simp [hd, hrun2]
  have hdec : lexDecimal c (cs1 ++ '.' :: D2) = some (numValue (c :: cs1) D2 none, []) := by
    unfold lexDecimal
    rw [hrun]
    simp [hfrac, lexExp]
  unfold lexNumber
  by_cases hc0 : c = '0'
  · subst hc0
    cases cs1 with
    | nil =>
      simp only [List.nil_append]
      have h1 : ¬('.' = 'x' ∨ '.' = 'X') := by decide
      have h2 : ¬('.' = 'o' ∨ '.' = 'O') := by decide
      have h3 : ¬('.' = 'b' ∨ '.' = 'B') := by decide
      simp only [h1, h2, h3, if_false]
      simpa using hdec
    | cons d ds =>
      have hd : d.isDigit = true := hcs1 d (by simp)
      obtain ⟨h1, h2, h3⟩ := isDigit_ne_radix hd
      simp only [List.cons_append, h1, h2, h3, if_false]
      simpa using hdec
  · rw [if_neg hc0]
    exact hdec

/-- The lexer loop at the end of input. -/
theorem lexL_nil (f : ℕ) : lexL (f + 1) [] = some [] := by
  simp [lexL]

/-- The lexer loop on a pure digit run. -/
theorem lexL_num_int (f : ℕ) (c : Char) (cs : Chars)
    (hc : c.isDigit = true) (hcs : ∀ x ∈ cs, x.isDigit = true)
    (hlz : badLeadingZero (c :: cs) [] false none = false) :
    lexL (f + 2) (c :: cs) = some [Tok.num (numValue (c :: cs) [] none)] := by
  have hnum := lexNumber_int c cs hc hcs hlz
  simp only [lexL, isDigit_not_space hc, if_false, hc, if_true, hnum]

/-- The lexer loop on a decimal literal. -/
theorem lexL_num_dec (f : ℕ) (c : Char) (cs1 D2 : Chars)
    (hc : c.isDigit = true) (hcs1 : ∀ x ∈ cs1, x.isDigit = true)
    (hD2 : ∀ x ∈ D2, x.isDigit = true) :
    lexL (f + 2) (c :: (cs1 ++ '.' :: D2)) =
      some [Tok.num (numValue (c :: cs1) D2 none)] := by
  have hnum := lexNumber_dec c cs1 D2 hc hcs1 hD2
  simp only [lexL, isDigit_not_space hc, if_false, hc, if_true, hnum]

/-- The lexer loop consumes a leading minus as an operator token. -/
theorem lexL_minus (f : ℕ) (cs : Chars) :
    lexL (f + 1) ('-' :: cs) = (lexL f cs).map (Tok.minus :: ·) := by
  rfl

/-- Unfolding of `lex` on a non-whitespace first character. -/
theorem lex_cons (c : Char) (cs : Chars) (h : ¬(c = ' ' ∨ c = '\t')) :
    lex (c :: cs) = lexL (cs.length + 2) (c :: cs) := by
  unfold lex
  change (if c = ' ' ∨ c = '\t' then none else lexL ((c :: cs).length + 1) (c :: cs)) = _
  rw [if_neg h]
  congr 1

/-- Parsing a lone number token. -/
theorem parse_num (f : ℕ) (q : ℚ) :
    parseE (f + 4) [Tok.num q] = some (.constNum q, []) := by
  simp [parseE, parseT, parseF, parseAtom, parseTL, parseEL]

/-- Parsing a minus sign followed by a number token: a `USub` node. -/
theorem parse_neg_num (f : ℕ) (q : ℚ) :
    parseE (f + 5) [Tok.minus, Tok.num q] = some (.unaryOp .usub (.constNum q), []) := by
  simp [parseE, parseT, parseF, parseAtom, parseTL, parseEL]

/-- A string lexing to one number token evaluates to that number. -/
theorem safeEvaluate_of_lex_num {s : String} {q : ℚ}
    (h : lex s.data = some [Tok.num q]) : safeEvaluate s = .ok q := by
  have hp : parseE (parseFuel [Tok.num q]) [Tok.num q] = some (.constNum q, []) := by
    have h2 := parse_num 12 q
    have : parseFuel [Tok.num q] = 12 + 4 := by simp [parseFuel]
    rw [this]
    exact h2
  simp [safeEvaluate, pyParse, h, hp, evalAst]

/-- A string lexing to minus followed by a number token evaluates to
the negated number. -/
theorem safeEvaluate_of_lex_neg_num {s : String} {q : ℚ}
    (h : lex s.data = some [Tok.minus, Tok.num q]) : safeEvaluate s = .ok (-q) := by
  have hp : parseE (parseFuel [Tok.minus, Tok.num q]) [Tok.minus, Tok.num q] =
      some (.unaryOp .usub (.constNum q), []) := by
    have h2 := parse_neg_num 19 q
    have : parseFuel [Tok.minus, Tok.num q] = 19 + 5 := by simp [parseFuel]
    rw [this]
    exact h2
  simp [safeEvaluate, pyParse, h, hp, evalAst]

/-- `str(int(...))` output never violates the leading-zero
restriction: it is `"0"` or starts with a nonzero digit. -/
theorem badLeadingZero_natDigits (n : ℕ) :
    badLeadingZero (natDigits n) [] false none = false := by
  by_cases hn : n = 0
  · subst hn
    decide
  · obtain ⟨c, cs, hD⟩ : ∃ c cs, natDigits n = c :: cs := by
      cases hD' : natDigits n with
      | nil => exact absurd hD' (natDigits_ne_nil _)
      | cons c cs => exact ⟨c, cs, rfl⟩
    have hcne : c ≠ '0' := natDigits_head_ne_zero hn c (by rw [hD]; rfl)
    simp [badLeadingZero, hD, hcne]

/-- Lexing the decimal print of `n` gives one number token of value
`n`. -/
theorem lex_natDigits (n : ℕ) : lex (natDigits n) = some [Tok.num (n : ℚ)] := by
  obtain ⟨c, cs, hD⟩ : ∃ c cs, natDigits n = c :: cs := by
    cases hD' : natDigits n with
    | nil => exact absurd hD' (natDigits_ne_nil _)
    | cons c cs => exact ⟨c, cs, rfl⟩
  have hc : c.isDigit = true := natDigits_isDigit n c (by rw [hD]; simp)
  have hcs : ∀ x ∈ cs, x.isDigit = true := fun x hx =>
    natDigits_isDigit n x (by rw [hD]; simp [hx])
  have hlz : badLeadingZero (c :: cs) [] false none = false := by
    rw [← hD]; exact badLeadingZero_natDigits n
  rw [hD, lex_cons c cs (isDigit_not_space hc), lexL_num_int cs.length c cs hc hcs hlz]
  rw [numValue_int, ← hD, natDigits_val]

/-- Lexing a minus sign and the decimal print of `n`. -/
theorem lex_neg_natDigits (n : ℕ) :
    lex ('-' :: natDigits n) = some [Tok.minus, Tok.num (n : ℚ)] := by
  obtain ⟨c, cs, hD⟩ : ∃ c cs, natDigits n = c :: cs := by
    cases hD' : natDigits n with
    | nil => exact absurd hD' (natDigits_ne_nil _)
    | cons c cs => exact ⟨c, cs, rfl⟩
  have hc : c.isDigit = true := natDigits_isDigit n c (by rw [hD]; simp)
  have hcs : ∀ x ∈ cs, x.isDigit = true := fun x hx =>
    natDigits_isDigit n x (by rw [hD]; simp [hx])
  have hlz : badLeadingZero (c :: cs) [] false none = false := by
    rw [← hD]; exact badLeadingZero_natDigits n
  rw [lex_cons '-' (natDigits n) (by decide)]
  have hf1 : (natDigits n).length + 2 = ((natDigits n).length + 1) + 1 := rfl
  rw [hf1, lexL_minus, hD]
  rw [show (c :: cs).length + 1 = cs.length + 2 from rfl]
  rw [lexL_num_int cs.length c cs hc hcs hlz]
  rw [numValue_int, ← hD, natDigits_val]
  rfl

/-- When some power of ten clears the denominator, `minExp` finds the
least exponent that does. -/
theorem minExp_dvd {d : ℕ} (h : d ∣ 10 ^ d) : ∃ k, minExp d = some k ∧ d ∣ 10 ^ k := by
  unfold minExp
  cases hf : (List.range (d + 1)).find? (fun k => decide (d ∣ 10 ^ k)) with
  | some k =>
    refine ⟨k, rfl, ?_⟩
    have := find?_range_prop hf
    simpa using this
  | none =>
    exfalso
    have := List.find?_eq_none.mp hf d (List.self_mem_range_succ d)
    simp at this
    exact this h

/-- Lexing the printed decimal expansion `a.b` (with `b` padded to `k`
digits) gives one number token of value `a + b / 10 ^ k`. -/
theorem lex_dec_digits (a k b : ℕ) (hb : b < 10 ^ k) :
    lex (natDigits a ++ '.' :: natPad k b) =
      some [Tok.num ((a : ℚ) + (b : ℚ) / 10 ^ k)] := by
  obtain ⟨c, cs, hD⟩ : ∃ c cs, natDigits a = c :: cs := by
    cases hD' : natDigits a with
    | nil => exact absurd hD' (natDigits_ne_nil _)
    | cons c cs => exact ⟨c, cs, rfl⟩
  have hc : c.isDigit = true := natDigits_isDigit a c (by rw [hD]; simp)
  have hcs : ∀ x ∈ cs, x.isDigit = true := fun x hx =>
    natDigits_isDigit a x (by rw [hD]; simp [hx])
  have hD2 : ∀ x ∈ natPad k b, x.isDigit = true := natPad_isDigit k b
  rw [hD, List.cons_append]
  rw [lex_cons c (cs ++ '.' :: natPad k b) (isDigit_not_space hc)]
  rw [lexL_num_dec (cs ++ '.' :: natPad k b).length c cs (natPad k b) hc hcs hD2]
  rw [numValue_dec, ← hD, natDigits_val, natPad_val, natPad_length]
  rw [Nat.mod_eq_of_lt hb]

/-- Lexing a minus sign and a printed decimal expansion. -/
theorem lex_neg_dec_digits (a k b : ℕ) (hb : b < 10 ^ k) :
    lex ('-' :: (natDigits a ++ '.' :: natPad k b)) =
      some [Tok.minus, Tok.num ((a : ℚ) + (b : ℚ) / 10 ^ k)] := by
  obtain ⟨c, cs, hD⟩ : ∃ c cs, natDigits a = c :: cs := by
    cases hD' : natDigits a with
    | nil => exact absurd hD' (natDigits_ne_nil _)
    | cons c cs => exact ⟨c, cs, rfl⟩
  have hc : c.isDigit = true := natDigits_isDigit a c (by rw [hD]; simp)
  have hcs : ∀ x ∈ cs, x.isDigit = true := fun x hx =>
    natDigits_isDigit a x (by rw [hD]; simp [hx])
  have hD2 : ∀ x ∈ natPad k b, x.isDigit = true := natPad_isDigit k b
  rw [lex_cons '-' (natDigits a ++ '.' :: natPad k b) (by decide)]
  have hf1 : (natDigits a ++ '.' :: natPad k b).length + 2 =
      ((natDigits a ++ '.' :: natPad k b).length + 1) + 1 := rfl
  rw [hf1, lexL_minus, hD, List.cons_append]
  rw [show (c :: (cs ++ '.' :: natPad k b)).length + 1 =
      (cs ++ '.' :: natPad k b).length + 2 from rfl]
  rw [lexL_num_dec (cs ++ '.' :: natPad k b).length c cs (natPad k b) hc hcs hD2]
  rw [numValue_dec, ← hD, natDigits_val, natPad_val, natPad_length]
  rw [Nat.mod_eq_of_lt hb]
  rfl

/-- Round trip for integral values: evaluating the formatted string of
a denominator-one rational recovers it. -/
theorem safeEvaluate_format_int {w : ℚ} (hw : w.den = 1) :
    safeEvaluate (formatNumber w) = .ok w := by
  have hnum : (w.num : ℚ) = w := by
    conv_rhs => rw [← Rat.num_div_den w]
    rw [hw]
    simp
  unfold formatNumber
  rw [if_pos hw]
  unfold intStr
  by_cases hneg : w.num < 0
  · rw [if_pos hneg]
    have hlex : lex (String.mk ('-' :: natDigits w.num.natAbs)).data =
        some [Tok.minus, Tok.num (w.num.natAbs : ℚ)] := lex_neg_natDigits _
    rw [safeEvaluate_of_lex_neg_num hlex]
    congr 1
    rw [Int.cast_natAbs, abs_of_neg hneg]
    push_cast
    rw [neg_neg, hnum]
  · rw [if_neg hneg]
    have hlex : lex (String.mk (natDigits w.num.natAbs)).data =
        some [Tok.num (w.num.natAbs : ℚ)] := lex_natDigits _
    rw [safeEvaluate_of_lex_num hlex]
    congr 1
    rw [Int.cast_natAbs, abs_of_nonneg (not_lt.mp hneg), hnum]

/-- Round trip for non-integral terminating values: evaluating the
formatted decimal expansion recovers the value exactly. -/
theorem safeEvaluate_format_dec {w : ℚ} (hden : w.den ≠ 1) (hT : Terminates w) :
    safeEvaluate (formatNumber w) = .ok w := by
  obtain ⟨k, hk, hdvd⟩ := minExp_dvd hT
  have hden0 : ((w.den : ℚ)) ≠ 0 := Nat.cast_ne_zero.mpr (Rat.den_ne_zero w)
  have h10 : ((10 : ℚ)) ^ k ≠ 0 := by positivity
  have hpow : (0 : ℕ) < 10 ^ k := by positivity
  have hw : (w.num : ℚ) / (w.den : ℚ) = w := Rat.num_div_den w
  set n := w.num.natAbs * (10 ^ k / w.den) with hn
  have hmod : n % 10 ^ k < 10 ^ k := Nat.mod_lt _ hpow
  have hND : n * w.den = w.num.natAbs * 10 ^ k := by
    rw [hn, mul_assoc, Nat.div_mul_cancel hdvd]
  have hcomb : ((n / 10 ^ k : ℕ) : ℚ) + ((n % 10 ^ k : ℕ) : ℚ) / 10 ^ k = (n : ℚ) / 10 ^ k := by
    rw [eq_div_iff h10, add_mul, div_mul_cancel₀ _ h10]
    have hdm : n / 10 ^ k * 10 ^ k + n % 10 ^ k = n := by
      rw [mul_comm]
      exact Nat.div_add_mod n (10 ^ k)
    exact_mod_cast hdm
  have hval : ((n / 10 ^ k : ℕ) : ℚ) + ((n % 10 ^ k : ℕ) : ℚ) / 10 ^ k =
      (w.num.natAbs : ℚ) / (w.den : ℚ) := by
    rw [hcomb, div_eq_div_iff h10 hden0]
    exact_mod_cast hND
  unfold formatNumber
  rw [if_neg hden]
  simp only [hk]
  by_cases hneg : w.num < 0
  · rw [if_pos hneg]
    have hlex : lex (String.mk
        ('-' :: (natDigits (n / 10 ^ k) ++ '.' :: natPad k (n % 10 ^ k)))).data =
        some [Tok.minus, Tok.num (((n / 10 ^ k : ℕ) : ℚ) + ((n % 10 ^ k : ℕ) : ℚ) / 10 ^ k)] :=
      lex_neg_dec_digits (n / 10 ^ k) k (n % 10 ^ k) hmod
    rw [safeEvaluate_of_lex_neg_num hlex]
    congr 1
    rw [hval, Int.cast_natAbs, abs_of_neg hneg]
    push_cast
    rw [neg_div, neg_neg, hw]
  · rw [if_neg hneg]
    have hlex : lex (String.mk
        (natDigits (n / 10 ^ k) ++ '.' :: natPad k (n % 10 ^ k))).data =
        some [Tok.num (((n / 10 ^ k : ℕ) : ℚ) + ((n % 10 ^ k : ℕ) : ℚ) / 10 ^ k)] :=
      lex_dec_digits (n / 10 ^ k) k (n % 10 ^ k) hmod
    rw [safeEvaluate_of_lex_num hlex]
    congr 1
    rw [hval, Int.cast_natAbs, abs_of_nonneg (not_lt.mp hneg), hw]

/-- Full round trip: evaluating the formatted string of any
terminating rational recovers it. -/
theorem safeEvaluate_formatNumber {w : ℚ} (hT : Terminates w) :
    safeEvaluate (formatNumber w) = .ok w := by
  by_cases hw : w.den = 1
  · exact safeEvaluate_format_int hw
  · exact safeEvaluate_format_dec hw hT

/-- Negation preserves the terminating-decimal property. -/
theorem neg_terminates {v : ℚ} (h : Terminates v) : Terminates (-v) := by
  unfold Terminates at *
  rw [Rat.neg_den]
  exact h

/-- C8: negation is involutive at the interface.  For every buffer
content evaluating to a value `v` (any value a float can hold, i.e.
with terminating decimal expansion), the sign-toggle action replaces
the buffer with the formatted `-v`, and evaluating that formatted
string recovers exactly `-v`. -/
theorem negate_involutive :
    ∀ (s : String) (v : ℚ), safeEvaluate s = .ok v → Terminates v →
      negate s = (formatNumber (-v), none) ∧
      safeEvaluate (formatNumber (-v)) = .ok (-v) := by
  intro s v hs hT
  have hsne : s ≠ "" := by
    intro h
    have hempty : safeEvaluate "" = .error .invalidExpression := by decide
    rw [h, hempty] at hs
    exact Except.noConfusion hs
  constructor
  · simp [negate, hsne, hs]
  · exact safeEvaluate_formatNumber (neg_terminates hT)

/-- Witness for C8 at the buffer `"2+2"`. -/
theorem negate_involutive_witness :
    negate "2+2" = (formatNumber (-(4 : ℚ)), none) ∧
    safeEvaluate (formatNumber (-(4 : ℚ))) = .ok (-4) :=
  negate_involutive "2+2" 4 (by decide) (by decide)
